import Mathlib

/-!
Verification development for the mdbook-epub asset-resolution and
chapter-content-transformation pipeline.

The definitions below are shallow embeddings of the Rust sources:
  * src/utils.rs                 (normalize_path)
  * src/filters/asset_link.rs    (compute_path_prefix, has_no_prefix_in_name)
  * src/resources/resource.rs    (link classification in find)
  * src/resources/retrieve.rs    (ResourceHandler::download / retrieve)
  * src/filters/quote_converter.rs (QuoteConverterFilter)
  * src/filters/footnote.rs      (FootnoteFilter)
Paths are modelled at the level of component lists (the Rust code itself
operates on std::path components); file-system and network access are
modelled as explicit oracles, with the observable side effects recorded
in an effect list.
-/

namespace MdBookEpub

/-- A path component, mirroring std::path::Component on a POSIX host
(Component::Prefix does not occur on POSIX parses and is omitted). -/
inductive PComp where
  | rootDir : PComp
  | curDir : PComp
  | parentDir : PComp
  | normal (s : String) : PComp
deriving DecidableEq, Repr

/-- PathBuf::pop: truncate to the parent path.  Popping an empty path or
the bare root is a no-op (Path::parent returns None there); otherwise the
last component is removed. -/
def pbPop (l : List PComp) : List PComp :=
  if l = [] ∨ l = [PComp.rootDir] then l else l.dropLast

/-- One step of the loop in utils.rs normalize_path.
RootDir is pushed via PathBuf::push with an absolute path, which replaces
the accumulated path entirely; CurDir is skipped; ParentDir pops; Normal
components are appended. -/
def normStep (ret : List PComp) (c : PComp) : List PComp :=
  match c with
  | PComp.rootDir => [PComp.rootDir]
  | PComp.curDir => ret
  | PComp.parentDir => pbPop ret
  | PComp.normal s => ret ++ [PComp.normal s]

/-- utils.rs normalize_path, folding the component loop from an empty
PathBuf (the Prefix branch is Windows-only and does not arise here). -/
def normalize_path (p : List PComp) : List PComp :=
  p.foldl normStep []

/-- Rendering of one component as pushed onto the OsString in
compute_path_prefix (Component::as_os_str). -/
def renderPComp (c : PComp) : String :=
  match c with
  | PComp.rootDir => "/"
  | PComp.curDir => "."
  | PComp.parentDir => ".."
  | PComp.normal s => s

/-- The join-with-"/" loop used in compute_path_prefix (push a separator
before every component except the first), and Vec::join("/"). -/
def joinSep : List String → String
  | [] => ""
  | [x] => x
  | x :: y :: xs => x ++ "/" ++ joinSep (y :: xs)

/-- asset_link.rs has_no_prefix_in_name, on the component list of the
rendered string: true exactly when the path is one single Normal
component (a bare file name). -/
def hasNoPrefixInName (l : List PComp) : Bool :=
  match l with
  | [PComp.normal _] => true
  | _ => false

/-- The components pushed onto the OsString fsp in compute_path_prefix:
a path starting with ParentDir is taken verbatim (Path::starts_with
compares whole components), otherwise RootDir components are skipped. -/
def fspComponents (path : List PComp) : List PComp :=
  if path.head? = some PComp.parentDir then path
  else path.filter (fun c => c ≠ PComp.rootDir)

/-- asset_link.rs compute_path_prefix.  A bare file name with no Asset
present is returned as is; in every other case depth-many ".." segments
are prepended and the whole is joined with "/". -/
def prefixedPath (depth : Nat) (path : List PComp) (assetPresent : Bool) : String :=
  if hasNoPrefixInName (fspComponents path) ∧ assetPresent = false then
    joinSep ((fspComponents path).map renderPComp)
  else
    joinSep (List.replicate depth ("..") ++ [joinSep ((fspComponents path).map renderPComp)])

/-- Result of parsing an absolute URL: the (lowercased) scheme and the
remainder after the colon. -/
structure ParsedUrl where
  scheme : String
  rest : String
deriving DecidableEq, Repr

/-- Split a character list at the first colon, returning the parts
before and after it; none when no colon occurs. -/
def splitAtColon : List Char → Option (List Char × List Char)
  | [] => none
  | c :: cs =>
    if c = Char.ofNat 58 then some ([], cs)
    else
      match splitAtColon cs with
      | some (a, b) => some (c :: a, b)
      | none => none

/-- A non-initial scheme character: ASCII alphanumeric, plus, minus or
dot. -/
def isSchemeTail (c : Char) : Bool :=
  c.isAlphanum || c = Char.ofNat 43 || c = Char.ofNat 45 || c = Char.ofNat 46

/-- Modelled from the spec: the external URL parser consumed at the
LinkClassifier boundary (url::Url::parse, not part of this repository).
An input parses as an absolute URL exactly when it begins with a valid
scheme - an ASCII letter followed by scheme characters - terminated by a
colon; the scheme is lowercased.  Host validation for special schemes is
not needed by the claims and is omitted. -/
def urlParse (s : String) : Option ParsedUrl :=
  match splitAtColon s.toList with
  | none => none
  | some (sch, rest) =>
    match sch with
    | [] => none
    | c :: cs =>
      if c.isAlpha && (c :: cs).all isSchemeTail then
        some ⟨String.mk ((c :: cs).map Char.toLower), String.mk rest⟩
      else none

/-- Classification of one raw link string. -/
inductive LinkClass where
  | remoteLink (u : ParsedUrl) : LinkClass
  | localLink (p : String) : LinkClass
deriving DecidableEq, Repr

/-- resource.rs find, lines 53-62: a link for which Url::parse succeeds
becomes a remote asset, every other link is treated as local. -/
def classifyLink (link : String) : LinkClass :=
  match urlParse link with
  | some u => LinkClass.remoteLink u
  | none => LinkClass.localLink link

/-- Unicode White_Space, as decided by Rust char::is_whitespace. -/
def rustIsWhitespace (c : Char) : Bool :=
  (9 ≤ c.toNat && c.toNat ≤ 13) || c.toNat = 32 || c.toNat = 133 || c.toNat = 160 ||
  c.toNat = 5760 || (8192 ≤ c.toNat && c.toNat ≤ 8202) || c.toNat = 8232 ||
  c.toNat = 8233 || c.toNat = 8239 || c.toNat = 8287 || c.toNat = 12288

/-- The straight apostrophe U+0027. -/
def apostropheChar : Char := Char.ofNat 39

/-- The straight double quote U+0022. -/
def quoteChar : Char := Char.ofNat 34

/-- Opening typographic single quote U+2018. -/
def leftSingleQuote : Char := Char.ofNat 8216

/-- Closing typographic single quote U+2019. -/
def rightSingleQuote : Char := Char.ofNat 8217

/-- Opening typographic double quote U+201C. -/
def leftDoubleQuote : Char := Char.ofNat 8220

/-- Closing typographic double quote U+201D. -/
def rightDoubleQuote : Char := Char.ofNat 8221

/-- The per-character replacement of convert_quotes_to_curly. -/
def convChar (precededByWhitespace : Bool) (c : Char) : Char :=
  if c = apostropheChar then
    if precededByWhitespace then leftSingleQuote else rightSingleQuote
  else if c = quoteChar then
    if precededByWhitespace then leftDoubleQuote else rightDoubleQuote
  else c

/-- The stateful character map of convert_quotes_to_curly: the flag for
the next character records whether the current original character is
whitespace. -/
def convertGo (ws : Bool) : List Char → List Char
  | [] => []
  | c :: cs => convChar ws c :: convertGo (rustIsWhitespace c) cs

/-- quote_converter.rs convert_quotes_to_curly on the character list of
the text (the start of text counts as preceded by whitespace). -/
def convertQuotesToCurly (s : List Char) : List Char :=
  convertGo true s

/-- The conversion flag in force at position i, given the flag ws at the
start of the text: at position 0 it is ws, afterwards whether the
preceding original character is whitespace. -/
def wsAt (ws : Bool) : List Char → Nat → Bool
  | _, 0 => ws
  | [], _ + 1 => ws
  | c :: cs, i + 1 => wsAt (rustIsWhitespace c) cs i

/-- The events the quote converter inspects. -/
inductive QEvent where
  | startCodeBlock
  | endCodeBlock
  | textEv (s : List Char)
  | otherEv
deriving DecidableEq, Repr

/-- quote_converter.rs QuoteConverterFilter state. -/
structure QCState where
  enabled : Bool
  convertText : Bool
deriving DecidableEq, Repr

/-- QuoteConverterFilter::new: conversion starts enabled-for-text. -/
def qcNew (enabled : Bool) : QCState := ⟨enabled, true⟩

/-- quote_converter.rs QuoteConverterFilter::apply. -/
def applyQC (st : QCState) (e : QEvent) : QCState × QEvent :=
  if st.enabled = false then (st, e)
  else
    match e with
    | QEvent.startCodeBlock => ({ st with convertText := false }, e)
    | QEvent.endCodeBlock => ({ st with convertText := true }, e)
    | QEvent.textEv s =>
      if st.convertText then (st, QEvent.textEv (convertQuotesToCurly s)) else (st, e)
    | QEvent.otherEv => (st, e)

/-- An HTTP response at the transport boundary: status code and body
bytes. -/
structure HttpResponse where
  status : Nat
  body : List Nat
deriving DecidableEq, Repr

/-- What the remote server would answer for a request: a response with
some status and body, or no connection at all. -/
inductive ServerReply where
  | respond (status : Nat) (body : List Nat)
  | noConnection
deriving DecidableEq, Repr

/-- The errors of the external HTTP client: a transport failure, or a
non-success HTTP status surfaced as an error (ureq::Error::StatusCode).
-/
inductive UreqError where
  | transport
  | statusCode (status : Nat)
deriving DecidableEq, Repr

/-- The error kinds of errors.rs relevant to asset retrieval; HttpError
wraps the client error (Error::HttpError(Box of ureq::Error)). -/
inductive ErrKind where
  | assetFileNotFound (msg : String)
  | httpError (e : UreqError)
  | mimeTypeError
deriving DecidableEq, Repr

/-- Outcome of ResourceHandler::retrieve: a successful retrieval with
the sniffed mime type, extension, size and bytes; an error; or a panic
(the unreachable! arm aborts the process). -/
inductive RetrieveResult where
  | ok (mimeType extension : String) (size : Nat) (body : List Nat)
  | err (e : ErrKind)
  | panicked (msg : String)
deriving DecidableEq, Repr

/-- Oracles for the network boundary: what the server answers for each
URL, and infer::Infer::get, which sniffs (mime type, extension) from
magic bytes, failing on unknown content. -/
structure NetEnv where
  server : String → ServerReply
  inferGet : List Nat → Option (String × String)

/-- Boundary model of the external HTTP client consumed by retrieve:
ureq::get(url).call() under the default agent, whose documented
http_status_as_error behavior turns every 4xx and 5xx response into
Err(StatusCode) instead of returning it; a lost connection is a
transport error; every other response is returned Ok. -/
def ureqCall (env : NetEnv) (url : String) : Except UreqError HttpResponse :=
  match env.server url with
  | ServerReply.noConnection => Except.error UreqError.transport
  | ServerReply.respond st body =>
    if 400 ≤ st ∧ st ≤ 599 then Except.error (UreqError.statusCode st)
    else Except.ok ⟨st, body⟩

/-- retrieve.rs ResourceHandler::retrieve.  A client error propagates
through the question-mark operator as Error::HttpError; on status 200
the body is sniffed (AssetFileNotFound when no mime type can be
determined); the source's further arms - 404 giving AssetFileNotFound
and unreachable! for the rest - are kept verbatim, although the default
client maps every failing status to Err before this match, leaving
those two arms dead for 4xx and 5xx responses. -/
def retrieveM (env : NetEnv) (url : String) : RetrieveResult :=
  match ureqCall env url with
  | Except.error e => RetrieveResult.err (ErrKind.httpError e)
  | Except.ok res =>
    if res.status = 200 then
      match env.inferGet res.body with
      | none =>
        RetrieveResult.err
          (ErrKind.assetFileNotFound ("Could not determine mime-type for resource: " ++ url))
      | some (mt, ext) => RetrieveResult.ok mt ext res.body.length res.body
    else if res.status = 404 then
      RetrieveResult.err (ErrKind.assetFileNotFound ("Missing remote resource: " ++ url))
    else RetrieveResult.panicked ("Unexpected response status for " ++ url)

/-- resources/asset.rs AssetKind, with URL and path boundary types kept
as strings. -/
inductive AKind where
  | remote (url : String)
  | localKind (path : String)
deriving DecidableEq, Repr

/-- resources/asset.rs Asset. -/
structure AssetM where
  original_link : String
  location_on_disk : String
  filename : String
  mimetype : String
  source : AKind
deriving DecidableEq, Repr

/-- retrieve.rs UpdatedAssetData. -/
structure UpdatedAssetData where
  mimetype : String
  location_on_disk : String
  filename : String
deriving DecidableEq, Repr

/-- Observable side effects of one download call. -/
inductive DlEffect where
  | mkdirAll (dir : String)
  | netFetch (url : String)
  | writeFile (path : String)
deriving DecidableEq, Repr

/-- Outcome of ResourceHandler::download. -/
inductive DlResult where
  | ok (u : UpdatedAssetData)
  | err (e : ErrKind)
  | panicked (msg : String)
deriving DecidableEq, Repr

/-- Oracles for the download boundary: the network, the file-system
is_file test, Path::parent, and Mime::from_str (failing on an
unparsable mime string, otherwise yielding the parsed mime rendered back
as a string). -/
structure DlEnv where
  net : NetEnv
  isFile : String → Bool
  pathParent : String → Option String
  mimeParse : String → Option String

/-- Characters of the final path component (after the last slash). -/
def baseNameChars (s : List Char) : List Char :=
  s.foldl (fun acc c => if c = Char.ofNat 47 then [] else acc ++ [c]) []

/-- Rust Path::extension().is_none(): the file name contains no dot
after its first character. -/
def extensionIsNone (path : String) : Bool :=
  !(((baseNameChars path.toList).drop 1).contains (Char.ofNat 46))

/-- retrieve.rs ResourceHandler::download, with the observable effects
recorded.  A remote asset whose destination is already a file returns
the current fields untouched; otherwise the cache directory is created,
the bytes are fetched and sniffed, a missing extension is appended to
both filename and location, and the bytes are written.  A non-remote
asset falls through to returning the current fields.  (I/O failures of
directory creation and file writing are not modelled.) -/
def dirEffs (env : DlEnv) (loc : String) : List DlEffect :=
  match env.pathParent loc with
  | some d => [DlEffect.mkdirAll d]
  | none => []

def downloadM (env : DlEnv) (asset : AssetM) : DlResult × List DlEffect :=
  match asset.source with
  | AKind.remote url =>
    if env.isFile asset.location_on_disk then
      (DlResult.ok ⟨asset.mimetype, asset.location_on_disk, asset.filename⟩, [])
    else
      match retrieveM env.net url with
      | RetrieveResult.panicked m =>
        (DlResult.panicked m, dirEffs env asset.location_on_disk ++ [DlEffect.netFetch url])
      | RetrieveResult.err e =>
        (DlResult.err e, dirEffs env asset.location_on_disk ++ [DlEffect.netFetch url])
      | RetrieveResult.ok mt ext _ _ =>
        match env.mimeParse mt with
        | none =>
          (DlResult.err ErrKind.mimeTypeError,
            dirEffs env asset.location_on_disk ++ [DlEffect.netFetch url])
        | some mime =>
          let newFilename :=
            if extensionIsNone asset.filename then asset.filename ++ "." ++ ext
            else asset.filename
          let newLocation :=
            if extensionIsNone asset.filename then asset.location_on_disk ++ "." ++ ext
            else asset.location_on_disk
          (DlResult.ok ⟨mime, newLocation, newFilename⟩,
            dirEffs env asset.location_on_disk ++
              [DlEffect.netFetch url, DlEffect.writeFile newLocation])
  | AKind.localKind _ =>
    (DlResult.ok ⟨asset.mimetype, asset.location_on_disk, asset.filename⟩, [])

/-- Modelled from the spec: Asset::with_updated_fields is called in
asset_link.rs but its definition is not under src/.  Per the spec
(section 4.4) the caller overwrites the mimetype, location and filename
fields of the shared Asset record with the returned triple; the original
link and the source kind are unchanged. -/
def with_updated_fields (asset : AssetM) (u : UpdatedAssetData) : AssetM :=
  { asset with
    mimetype := u.mimetype
    location_on_disk := u.location_on_disk
    filename := u.filename }

/-- The file-system state after the recorded effects: exactly the
written files come into existence. -/
def envAfter (env : DlEnv) (effs : List DlEffect) : DlEnv :=
  { env with isFile := fun p => env.isFile p || decide (DlEffect.writeFile p ∈ effs) }

/-- Number of network fetches in an effect list. -/
def fetchCount (effs : List DlEffect) : Nat :=
  (effs.filter (fun e => match e with | DlEffect.netFetch _ => true | _ => false)).length

/-- The pulldown-cmark events the footnote filter inspects. -/
inductive FEvent where
  | startFootnoteDef (name : String)
  | endFootnoteDef
  | footnoteReference (name : String)
  | startParagraph
  | endParagraph
  | textEv (s : String)
  | htmlEv (s : String)
  | otherEv
deriving DecidableEq, Repr

/-- footnote.rs FootnoteFilter state: the buffered finished definitions,
the stack of currently open definitions, and the numbering map.  The
HashMap from name to (assigned number, usage count) is modelled as an
association list; the stored numbers do not depend on any iteration
order, so keeping insertion order is immaterial. -/
structure FNState where
  footnotes : List (List FEvent)
  inFootnote : List (List FEvent)
  footnoteNumbers : List (String × Nat × Nat)
  isEnabled : Bool
deriving DecidableEq, Repr

/-- FootnoteFilter::new. -/
def fnNew (isEnabled : Bool) : FNState := ⟨[], [], [], isEnabled⟩

/-- HashMap::get on the numbering map. -/
def fnLookup : List (String × Nat × Nat) → String → Option (Nat × Nat)
  | [], _ => none
  | (n, a, b) :: rest, name => if n = name then some (a, b) else fnLookup rest name

/-- HashMap::entry(name).or_insert((fresh, 0)) followed by the usage
increment: bump the count of an existing entry, or insert (fresh, 1). -/
def fnBump : List (String × Nat × Nat) → String → Nat → List (String × Nat × Nat)
  | [], name, fresh => [(name, fresh, 1)]
  | (n, a, b) :: rest, name, fresh =>
    if n = name then (n, a, b + 1) :: rest else (n, a, b) :: fnBump rest name fresh

/-- The superscript anchor emitted in the body for one footnote
reference. -/
def refAnchor (name : String) (n nr : Nat) : FEvent :=
  FEvent.htmlEv ("<sup class=\"footnote-reference\" id=\"fr-" ++ name ++ "-" ++ toString nr
    ++ "\"><a href=\"#fn-" ++ name ++ "\">[" ++ toString n ++ "]</a></sup>")

/-- Push onto the innermost open definition buffer (a no-op on an empty
stack, as in replace_last_in_footnote). -/
def appendToLast : List (List FEvent) → FEvent → List (List FEvent)
  | [], _ => []
  | [v], e => [v ++ [e]]
  | v :: w :: rest, e => v :: appendToLast (w :: rest) e

/-- footnote.rs FootnoteFilter::apply together with
move_from_in_to_footnotes: one event in, the new state plus the
optionally emitted body event out. -/
def applyFN (st : FNState) (e : FEvent) : FNState × Option FEvent :=
  if st.isEnabled = false then (st, some e)
  else
    match e with
    | FEvent.startFootnoteDef _ =>
      ({ st with inFootnote := st.inFootnote ++ [[e]] }, none)
    | FEvent.endFootnoteDef =>
      match st.inFootnote.getLast? with
      | none => (st, none)
      | some v =>
        ({ st with inFootnote := st.inFootnote.dropLast,
                   footnotes := st.footnotes ++ [v ++ [e]] }, none)
    | FEvent.footnoteReference name =>
      let fresh := st.footnoteNumbers.length + 1
      let pair : Nat × Nat :=
        match fnLookup st.footnoteNumbers name with
        | some (a, b) => (a, b + 1)
        | none => (fresh, 1)
      let anchor := refAnchor name pair.1 pair.2
      if st.inFootnote.isEmpty then
        ({ st with footnoteNumbers := fnBump st.footnoteNumbers name fresh }, some anchor)
      else
        ({ st with footnoteNumbers := fnBump st.footnoteNumbers name fresh,
                   inFootnote := appendToLast st.inFootnote anchor }, none)
    | _ =>
      if st.inFootnote.isEmpty then (st, some e)
      else ({ st with inFootnote := appendToLast st.inFootnote e }, none)

/-- Run the footnote filter over a chapter event stream (filter_map over
apply), collecting the emitted body events. -/
def runFN : FNState → List FEvent → FNState × List FEvent
  | st, [] => (st, [])
  | st, e :: es =>
    let r := applyFN st e
    let rest := runFN r.1 es
    (rest.1, r.2.toList ++ rest.2)

/-- footnote.rs FootnoteFilter::retain: drop every buffered definition
whose usage count is zero (a missing map entry counts as (0, 0)). -/
def retainFN (st : FNState) : List (List FEvent) :=
  st.footnotes.filter (fun f =>
    match f.head? with
    | some (FEvent.startFootnoteDef name) =>
      ((fnLookup st.footnoteNumbers name).getD (0, 0)).2 != 0
    | _ => false)

/-- The cached sort key of FootnoteFilter::sort_by_cached_key: the
assigned number of the definition name heading the block (the
unreachable! arm is modelled as key 0; retained blocks always start with
a definition tag). -/
def keyOf (m : List (String × Nat × Nat)) (f : List FEvent) : Nat :=
  match f.head? with
  | some (FEvent.startFootnoteDef name) => ((fnLookup m name).getD (0, 0)).1
  | _ => 0

/-- Stable insertion before the first element of strictly larger key
(equal keys keep their relative order, as in the stable
Vec::sort_by_cached_key). -/
def insertByKey {α : Type} (key : α → Nat) (x : α) : List α → List α
  | [] => [x]
  | y :: ys => if key x ≤ key y then x :: y :: ys else y :: insertByKey key x ys

/-- Stable sort by key. -/
def sortByKey {α : Type} (key : α → Nat) : List α → List α
  | [] => []
  | x :: xs => insertByKey key x (sortByKey key xs)

/-- End-of-chapter re-emission order: prune unused definitions, then
sort the survivors by first-reference number. -/
def sortedFootnotes (st : FNState) : List (List FEvent) :=
  sortByKey (keyOf st.footnoteNumbers) (retainFN st)

/-- One event's contribution to the first-reference name order: a
reference to an unseen name appends it. -/
def refStep (acc : List String) (e : FEvent) : List String :=
  match e with
  | FEvent.footnoteReference n => if n ∈ acc then acc else acc ++ [n]
  | _ => acc

/-- Names of footnote references in order of first occurrence, appended
to an accumulator. -/
def refNamesGo (acc : List String) : List FEvent → List String
  | [] => acc
  | e :: es => refNamesGo (refStep acc e) es

/-- The numbering induced by a first-reference name list: the k-th name
receives number k + 1 (offset form). -/
def numbered : List String → Nat → List (String × Nat)
  | [], _ => []
  | n :: rest, k => (n, k + 1) :: numbered rest (k + 1)

/-- Projection of the numbering map to names and assigned numbers. -/
def projNums : List (String × Nat × Nat) → List (String × Nat)
  | [] => []
  | e :: rest => (e.1, e.2.1) :: projNums rest

/-- Assoc lookup on the projected map. -/
def lookupNum : List (String × Nat) → String → Option Nat
  | [], _ => none
  | (n, a) :: rest, name => if n = name then some a else lookupNum rest name

/-- Index of the first occurrence of a name in a name list. -/
def idxOfStr (a : String) : List String → Nat
  | [] => 0
  | b :: bs => if b = a then 0 else idxOfStr a bs + 1

/-- The definition name heading a re-emitted block. -/
def headName (f : List FEvent) : Option String :=
  match f.head? with
  | some (FEvent.startFootnoteDef name) => some name
  | _ => none

/-- A component that is a plain name. -/
def isNormalComp (c : PComp) : Prop := ∃ s, c = PComp.normal s

/-- Every component is a plain name. -/
def AllNormal (l : List PComp) : Prop := ∀ c ∈ l, isNormalComp c

/-- The canonical shapes normalize_path can produce: plain names,
optionally behind a single leading root. -/
def Canon (l : List PComp) : Prop :=
  AllNormal l ∨ ∃ t, l = PComp.rootDir :: t ∧ AllNormal t

/-- Concrete remote asset used to instantiate the cache theorems. -/
def assetC3 : AssetM where
  original_link := "https://h/img.png"
  location_on_disk := "/dest/img.png"
  filename := "img.png"
  mimetype := "image/png"
  source := AKind.remote ("https://h/img.png")

/-- Concrete download environment whose destination file already
exists. -/
def envC3 : DlEnv where
  net := { server := fun _ => ServerReply.noConnection, inferGet := fun _ => none }
  isFile := fun _ => true
  pathParent := fun _ => none
  mimeParse := fun _ => none

/-- Concrete local asset used to instantiate the frame theorem. -/
def assetC10 : AssetM where
  original_link := "./logo.png"
  location_on_disk := "/book/src/logo.png"
  filename := "logo.png"
  mimetype := "image/png"
  source := AKind.localKind ("./logo.png")

/-- Concrete download environment for the local-asset theorem. -/
def envC10 : DlEnv where
  net := { server := fun _ => ServerReply.noConnection, inferGet := fun _ => none }
  isFile := fun _ => false
  pathParent := fun _ => none
  mimeParse := fun _ => none

/-- Network oracle whose server answers every request with HTTP 404. -/
def netC7srv404 : NetEnv where
  server := fun _ => ServerReply.respond 404 []
  inferGet := fun _ => none

/-- Network oracle whose server answers every request with HTTP 500. -/
def netC7srv500 : NetEnv where
  server := fun _ => ServerReply.respond 500 []
  inferGet := fun _ => none

/-- Network oracle with no reachable server. -/
def netC7noConn : NetEnv where
  server := fun _ => ServerReply.noConnection
  inferGet := fun _ => none

/-- Concrete quote-converter text: He said "hi" (with straight
quotes). -/
def textC9 : List Char :=
  [Char.ofNat 72, Char.ofNat 101, Char.ofNat 32, quoteChar, Char.ofNat 104,
   Char.ofNat 105, quoteChar]

/-- Concrete chapter stream: body references footnote 1 then footnote 2,
while the definitions appear in the opposite order. -/
def evsC1 : List FEvent :=
  [FEvent.textEv ("a"), FEvent.footnoteReference ("1"), FEvent.footnoteReference ("2"),
   FEvent.startFootnoteDef ("2"), FEvent.startParagraph, FEvent.textEv ("second"),
   FEvent.endParagraph, FEvent.endFootnoteDef,
   FEvent.startFootnoteDef ("1"), FEvent.startParagraph, FEvent.textEv ("first"),
   FEvent.endParagraph, FEvent.endFootnoteDef]

/-- Concrete chapter stream defining a footnote that is never
referenced. -/
def evsC8 : List FEvent :=
  [FEvent.startFootnoteDef ("u"), FEvent.textEv ("unused"), FEvent.endFootnoteDef]

theorem allNormal_dropLast {l : List PComp} (h : AllNormal l) : AllNormal l.dropLast :=
  fun c hc => h c ((List.dropLast_sublist l).subset hc)

theorem canon_pbPop {l : List PComp} (h : Canon l) : Canon (pbPop l) := by
  unfold pbPop
  split
  · exact h
  · rename_i hne
    rcases h with hall | ⟨t, rfl, hall⟩
    · exact Or.inl (allNormal_dropLast hall)
    · cases t with
      | nil => exact absurd (Or.inr rfl) hne
      | cons a t' =>
        refine Or.inr ⟨(a :: t').dropLast, ?_, allNormal_dropLast hall⟩
        simp [List.dropLast]

theorem canon_normStep {l : List PComp} (c : PComp) (h : Canon l) : Canon (normStep l c) := by
  cases c with
  | rootDir => exact Or.inr ⟨[], rfl, fun x hx => absurd hx (List.not_mem_nil x)⟩
  | curDir => exact h
  | parentDir => exact canon_pbPop h
  | normal s =>
    rcases h with hall | ⟨t, rfl, hall⟩
    · left
      intro x hx
      rcases List.mem_append.mp hx with hx | hx
      · exact hall x hx
      · rw [List.mem_singleton] at hx
        exact ⟨s, hx⟩
    · refine Or.inr ⟨t ++ [PComp.normal s], by simp [normStep], ?_⟩
      intro x hx
      rcases List.mem_append.mp hx with hx | hx
      · exact hall x hx
      · rw [List.mem_singleton] at hx
        exact ⟨s, hx⟩

theorem canon_foldl (l : List PComp) (acc : List PComp) (h : Canon acc) :
    Canon (List.foldl normStep acc l) := by
  induction l generalizing acc with
  | nil => exact h
  | cons c l ih => exact ih _ (canon_normStep c h)

theorem canon_normalize_path (p : List PComp) : Canon (normalize_path p) :=
  canon_foldl p [] (Or.inl (fun c hc => absurd hc (List.not_mem_nil c)))

theorem foldl_allNormal (t : List PComp) (acc : List PComp) (h : AllNormal t) :
    List.foldl normStep acc t = acc ++ t := by
  induction t generalizing acc with
  | nil => simp
  | cons c t ih =>
    obtain ⟨s, rfl⟩ := h c (List.mem_cons_self c t)
    have ht : AllNormal t := fun x hx => h x (List.mem_cons_of_mem _ hx)
    rw [List.foldl_cons]
    show List.foldl normStep (acc ++ [PComp.normal s]) t = _
    rw [ih _ ht, List.append_assoc]
    rfl

theorem normalize_path_canon_fix {l : List PComp} (h : Canon l) : normalize_path l = l := by
  rcases h with hall | ⟨t, rfl, hall⟩
  · simpa using foldl_allNormal l [] hall
  · unfold normalize_path
    rw [List.foldl_cons]
    show List.foldl normStep [PComp.rootDir] t = _
    rw [foldl_allNormal t [PComp.rootDir] hall]
    rfl

/-- C4: the path normalization function is idempotent: for every input
path p, normalize(normalize(p)) equals normalize(p). -/
theorem normalize_path_idempotent (p : List PComp) :
    normalize_path (normalize_path p) = normalize_path p :=
  normalize_path_canon_fix (canon_normalize_path p)

theorem parentDir_not_canon {l : List PComp} (h : Canon l) : PComp.parentDir ∉ l := by
  intro hmem
  rcases h with hall | ⟨t, rfl, hall⟩
  · rcases hall _ hmem with ⟨s, hs⟩
    cases hs
  · rcases List.mem_cons.mp hmem with h0 | hmem'
    · cases h0
    · rcases hall _ hmem' with ⟨s, hs⟩
      cases hs

/-- C5 counterexample: normalizing ../file.txt yields file.txt - the
excess ParentDir component is discarded, the result does not start with
(or contain) any unresolved ".." segment. -/
theorem normalize_path_excess_parent_dropped :
    normalize_path [PComp.parentDir, PComp.normal ("file.txt")] =
      [PComp.normal ("file.txt")] ∧
    PComp.parentDir ∉ normalize_path [PComp.parentDir, PComp.normal ("file.txt")] := by
  constructor
  · rfl
  · decide

/-- C5 amended: normalize pops one already-collected segment per
ParentDir component and popping on an empty result is a no-op, but the
excess leading ".." components are discarded rather than kept: the
returned path never contains a ParentDir segment. -/
theorem normalize_path_parent_behavior (p : List PComp) :
    PComp.parentDir ∉ normalize_path p ∧
    normalize_path (p ++ [PComp.parentDir]) = pbPop (normalize_path p) := by
  constructor
  · exact parentDir_not_canon (canon_normalize_path p)
  · unfold normalize_path
    rw [List.foldl_append]
    rfl

theorem joinSep_cons_ne {x : String} {l : List String} (h : l ≠ []) :
    joinSep (x :: l) = x ++ "/" ++ joinSep l := by
  cases l with
  | nil => exact absurd rfl h
  | cons y ys => rfl

theorem joinSep_append_join {ys : List String} (xs : List String) (h : ys ≠ []) :
    joinSep (xs ++ [joinSep ys]) = joinSep (xs ++ ys) := by
  induction xs with
  | nil =>
    show joinSep [joinSep ys] = joinSep ys
    rfl
  | cons x xs ih =>
    rw [List.cons_append, List.cons_append, joinSep_cons_ne (by simp),
        joinSep_cons_ne (fun hc => h (List.append_eq_nil.mp hc).2), ih]

/-- C2: for a nonempty container-relative filename (no RootDir
component) and any depth n, the rewritten link produced with an Asset
present is exactly n ".." segments followed by the components of the
filename, joined with forward slashes; depth 0 leaves the filename
unchanged, and a filename already beginning with ".." still has the n
segments prepended. -/
theorem compute_path_prefix_spec (depth : Nat) (path : List PComp)
    (hne : path ≠ []) (hroot : PComp.rootDir ∉ path) :
    prefixedPath depth path true =
      joinSep (List.replicate depth ("..") ++ path.map renderPComp) := by
  have hcomps : fspComponents path = path := by
    unfold fspComponents
    split
    · rfl
    · apply List.filter_eq_self.mpr
      intro a ha
      simp only [ne_eq, decide_eq_true_eq]
      intro hleft
      exact hroot (hleft ▸ ha)
  have hmapne : path.map renderPComp ≠ [] := by
    simpa using hne
  unfold prefixedPath
  rw [hcomps, if_neg (fun hand => by simpa using hand.2)]
  exact joinSep_append_join _ hmapne

/-- C2 witness: depth 5 applied to ../file.txt produces six levels of
".." before file.txt. -/
theorem compute_path_prefix_spec_witness :
    ([PComp.parentDir, PComp.normal ("file.txt")] ≠ ([] : List PComp)) ∧
    prefixedPath 5 [PComp.parentDir, PComp.normal ("file.txt")] true =
      joinSep (List.replicate 5 ("..") ++
        ([PComp.parentDir, PComp.normal ("file.txt")]).map renderPComp) ∧
    prefixedPath 5 [PComp.parentDir, PComp.normal ("file.txt")] true =
      ("../../../../../../file.txt") :=
  ⟨by decide, compute_path_prefix_spec 5 _ (by decide) (by decide), by rfl⟩

/-- C6 counterexample: the link ftp://example.com/a.png parses as an
absolute URL, so find classifies it as Remote, although its scheme is
neither http nor https. -/
theorem classify_ftp_counterexample :
    classifyLink ("ftp://example.com/a.png") =
      LinkClass.remoteLink { scheme := "ftp", rest := "//example.com/a.png" } ∧
    ({ scheme := "ftp", rest := "//example.com/a.png" } : ParsedUrl).scheme ≠ ("http") ∧
    ({ scheme := "ftp", rest := "//example.com/a.png" } : ParsedUrl).scheme ≠ ("https") := by
  refine ⟨?_, by decide, by decide⟩
  rfl

/-- C6 amended: a raw link is classified Remote exactly when it parses
as an absolute URL, with any scheme; every string that does not parse -
including relative links with unusual characters - is classified Local.
-/
theorem classify_remote_iff (link : String) :
    (classifyLink link = LinkClass.localLink link ↔ urlParse link = none) ∧
    (∀ u, classifyLink link = LinkClass.remoteLink u ↔ urlParse link = some u) := by
  unfold classifyLink
  cases h : urlParse link with
  | none => exact ⟨by simp, fun u => by simp⟩
  | some u' => exact ⟨by simp, fun u => by simp⟩

/-- C7 (code bug, evaluated at the failing input): because the default
client surfaces every failing status as an error before the status
match, a server answering HTTP 404 makes retrieve return the HttpError
transport error wrapping StatusCode 404 - not the AssetFileNotFound
that the (dead) 404 arm and the claim promise; a 500 response and a
lost connection likewise produce HttpError, and no failing status
reaches the unreachable! abort. -/
theorem retrieve_404_transport_bug :
    retrieveM netC7srv404 ("http://h/a.png") =
      RetrieveResult.err (ErrKind.httpError (UreqError.statusCode 404)) ∧
    (∀ msg, retrieveM netC7srv404 ("http://h/a.png") ≠
      RetrieveResult.err (ErrKind.assetFileNotFound msg)) ∧
    retrieveM netC7srv500 ("http://h/a.png") =
      RetrieveResult.err (ErrKind.httpError (UreqError.statusCode 500)) ∧
    retrieveM netC7noConn ("http://h/a.png") =
      RetrieveResult.err (ErrKind.httpError UreqError.transport) ∧
    (∀ msg, retrieveM netC7srv500 ("http://h/a.png") ≠ RetrieveResult.panicked msg) := by
  refine ⟨rfl, ?_, rfl, rfl, ?_⟩
  · intro msg h
    rw [show retrieveM netC7srv404 ("http://h/a.png") =
      RetrieveResult.err (ErrKind.httpError (UreqError.statusCode 404)) from rfl] at h
    injection h with h1
    exact ErrKind.noConfusion h1
  · intro msg h
    rw [show retrieveM netC7srv500 ("http://h/a.png") =
      RetrieveResult.err (ErrKind.httpError (UreqError.statusCode 500)) from rfl] at h
    exact RetrieveResult.noConfusion h

theorem downloadM_cache_hit (env : DlEnv) (asset : AssetM) (url : String)
    (hsrc : asset.source = AKind.remote url)
    (hfile : env.isFile asset.location_on_disk = true) :
    downloadM env asset =
      (DlResult.ok
        { mimetype := asset.mimetype,
          location_on_disk := asset.location_on_disk,
          filename := asset.filename }, []) := by
  simp [downloadM, hsrc, hfile]

theorem fetchCount_write_effs (env : DlEnv) (loc url nl : String) :
    fetchCount (dirEffs env loc ++ [DlEffect.netFetch url, DlEffect.writeFile nl]) = 1 := by
  unfold dirEffs
  cases env.pathParent loc <;> simp [fetchCount]

theorem writeFile_mem_write_effs (env : DlEnv) (loc url nl : String) :
    DlEffect.writeFile nl ∈ dirEffs env loc ++ [DlEffect.netFetch url, DlEffect.writeFile nl] := by
  unfold dirEffs
  cases env.pathParent loc <;> simp

/-- C3: the download operation is idempotent.  A remote asset whose
location already names an existing file comes back with its current
mimetype, location and filename and no effects (in particular no network
fetch); and after any successful call, re-running download on the asset
updated with the returned fields (the caller-overwrite protocol of the
spec) performs no further network or file-system effect and returns the
identical fields, so two calls fetch at most once. -/
theorem download_idempotent (env : DlEnv) (asset : AssetM) (url : String)
    (hsrc : asset.source = AKind.remote url) :
    (env.isFile asset.location_on_disk = true →
      downloadM env asset =
        (DlResult.ok
          { mimetype := asset.mimetype,
            location_on_disk := asset.location_on_disk,
            filename := asset.filename }, [])) ∧
    (∀ u effs, downloadM env asset = (DlResult.ok u, effs) →
      fetchCount effs ≤ 1 ∧
      downloadM (envAfter env effs) (with_updated_fields asset u) = (DlResult.ok u, [])) := by
  constructor
  · intro hfile
    exact downloadM_cache_hit env asset url hsrc hfile
  · intro u effs h
    cases hfile : env.isFile asset.location_on_disk with
    | true =>
      rw [downloadM_cache_hit env asset url hsrc hfile] at h
      injection h with h1 h2
      injection h1 with h1
      subst h2
      refine ⟨by simp [fetchCount], ?_⟩
      rw [← h1]
      have hsrc' : (with_updated_fields asset
          { mimetype := asset.mimetype, location_on_disk := asset.location_on_disk,
            filename := asset.filename }).source = AKind.remote url := by
        simpa [with_updated_fields] using hsrc
      have hfile' : (envAfter env []).isFile (with_updated_fields asset
          { mimetype := asset.mimetype, location_on_disk := asset.location_on_disk,
            filename := asset.filename }).location_on_disk = true := by
        simp [envAfter, with_updated_fields, hfile]
      rw [downloadM_cache_hit _ _ url hsrc' hfile']
      simp [with_updated_fields]
    | false =>
      cases hr : retrieveM env.net url with
      | panicked m => simp [downloadM, hsrc, hfile, hr] at h
      | err e => simp [downloadM, hsrc, hfile, hr] at h
      | ok mt ext sz body =>
        cases hm : env.mimeParse mt with
        | none => simp [downloadM, hsrc, hfile, hr, hm] at h
        | some mime =>
          simp only [downloadM, hsrc, hfile, hr, hm, Bool.false_eq_true, if_false,
            Prod.mk.injEq, DlResult.ok.injEq] at h
          obtain ⟨hu, heffs⟩ := h
          subst hu
          subst heffs
          constructor
          · exact Nat.le_of_eq (fetchCount_write_effs env asset.location_on_disk url _)
          · have hsrc' : (with_updated_fields asset
                { mimetype := mime,
                  location_on_disk :=
                    if extensionIsNone asset.filename then
                      asset.location_on_disk ++ "." ++ ext
                    else asset.location_on_disk,
                  filename :=
                    if extensionIsNone asset.filename then asset.filename ++ "." ++ ext
                    else asset.filename }).source = AKind.remote url := by
              simpa [with_updated_fields] using hsrc
            have hmem := writeFile_mem_write_effs env asset.location_on_disk url
              (if extensionIsNone asset.filename then asset.location_on_disk ++ "." ++ ext
               else asset.location_on_disk)
            rw [downloadM_cache_hit _ _ url hsrc' (by
              simp [envAfter, with_updated_fields, hmem])]
            simp [with_updated_fields]

/-- C3 witness: a remote asset whose cache file already exists is
returned unchanged with no effects. -/
theorem download_idempotent_witness :
    envC3.isFile assetC3.location_on_disk = true ∧
    downloadM envC3 assetC3 =
      (DlResult.ok
        { mimetype := assetC3.mimetype,
          location_on_disk := assetC3.location_on_disk,
          filename := assetC3.filename }, []) :=
  ⟨rfl, (download_idempotent envC3 assetC3 ("https://h/img.png") rfl).1 rfl⟩

/-- C10: download on a local asset returns its current mimetype,
location and filename unchanged, with an empty effect list - no network
fetch and no file-system write; only remote assets are ever fetched or
written. -/
theorem download_local_frame (env : DlEnv) (asset : AssetM) (p : String)
    (hsrc : asset.source = AKind.localKind p) :
    downloadM env asset =
      (DlResult.ok
        { mimetype := asset.mimetype,
          location_on_disk := asset.location_on_disk,
          filename := asset.filename }, []) := by
  simp [downloadM, hsrc]

/-- C10 witness: a concrete local asset passes through untouched. -/
theorem download_local_frame_witness :
    downloadM envC10 assetC10 =
      (DlResult.ok
        { mimetype := assetC10.mimetype,
          location_on_disk := assetC10.location_on_disk,
          filename := assetC10.filename }, []) :=
  download_local_frame envC10 assetC10 ("./logo.png") rfl

theorem convertGo_length (ws : Bool) (s : List Char) : (convertGo ws s).length = s.length := by
  induction s generalizing ws with
  | nil => rfl
  | cons c cs ih => simp [convertGo, ih]

theorem convertGo_getD (s : List Char) (ws : Bool) (i : Nat) (d : Char) (h : i < s.length) :
    (convertGo ws s).getD i d = convChar (wsAt ws s i) (s.getD i d) := by
  induction s generalizing ws i with
  | nil => cases h
  | cons c cs ih =>
    cases i with
    | zero => rfl
    | succ i =>
      show (convertGo (rustIsWhitespace c) cs).getD i d = _
      rw [ih (rustIsWhitespace c) i (Nat.lt_of_succ_lt_succ h)]
      rfl

/-- C9: with conversion enabled, a text token processed outside a code
block is mapped character by character - a straight apostrophe or double
quote becomes its opening typographic form when the preceding original
character (or the synthetic start of text) is whitespace and its closing
form otherwise, all other characters stay; a code-block start token
disables conversion, the end token re-enables it, and with conversion
disabled text tokens pass through unaltered. -/
theorem quote_conversion_spec (st : QCState) (s : List Char)
    (hen : st.enabled = true) :
    (st.convertText = true →
      applyQC st (QEvent.textEv s) = (st, QEvent.textEv (convertQuotesToCurly s)) ∧
      (convertQuotesToCurly s).length = s.length ∧
      (∀ i d, i < s.length →
        (convertQuotesToCurly s).getD i d = convChar (wsAt true s i) (s.getD i d))) ∧
    applyQC st QEvent.startCodeBlock = ({ st with convertText := false }, QEvent.startCodeBlock) ∧
    applyQC st QEvent.endCodeBlock = ({ st with convertText := true }, QEvent.endCodeBlock) ∧
    (st.convertText = false → applyQC st (QEvent.textEv s) = (st, QEvent.textEv s)) := by
  refine ⟨?_, ?_, ?_, ?_⟩
  · intro hct
    refine ⟨by simp [applyQC, hen, hct], convertGo_length true s, ?_⟩
    intro i d h
    exact convertGo_getD s true i d h
  · simp [applyQC, hen]
  · simp [applyQC, hen]
  · intro hct
    simp [applyQC, hen, hct]

/-- C9 witness: a concrete text with a double quote after a space and
one after a letter gets the opening and the closing typographic form
respectively. -/
theorem quote_conversion_spec_witness :
    applyQC (qcNew true) (QEvent.textEv textC9) =
      (qcNew true, QEvent.textEv (convertQuotesToCurly textC9)) ∧
    (convertQuotesToCurly textC9).getD 3 (Char.ofNat 0) = leftDoubleQuote ∧
    (convertQuotesToCurly textC9).getD 6 (Char.ofNat 0) = rightDoubleQuote :=
  ⟨((quote_conversion_spec (qcNew true) textC9 rfl).1 rfl).1, by decide, by decide⟩

theorem fnLookup_fnBump_ne (m : List (String × Nat × Nat)) (n name : String) (f : Nat)
    (h : n ≠ name) : fnLookup (fnBump m n f) name = fnLookup m name := by
  induction m with
  | nil => simp [fnBump, fnLookup, h]
  | cons e rest ih =>
    obtain ⟨n1, a, b⟩ := e
    by_cases hn : n1 = n
    · subst hn
      simp [fnBump, fnLookup, h]
    · simp [fnBump, hn, fnLookup, ih]

theorem applyFN_numbers_ne (st : FNState) (e : FEvent) (name : String)
    (h : ∀ n, e = FEvent.footnoteReference n → n ≠ name) :
    fnLookup (applyFN st e).1.footnoteNumbers name = fnLookup st.footnoteNumbers name := by
  by_cases hen : st.isEnabled = false
  · simp [applyFN, hen]
  · cases e with
    | startFootnoteDef n => simp [applyFN, hen]
    | endFootnoteDef =>
      cases hL : st.inFootnote.getLast? <;> simp [applyFN, hen, hL]
    | footnoteReference n =>
      have hn : n ≠ name := h n rfl
      by_cases hin : st.inFootnote.isEmpty <;>
        simp [applyFN, hen, hin, fnLookup_fnBump_ne _ _ _ _ hn]
    | startParagraph => by_cases hin : st.inFootnote.isEmpty <;> simp [applyFN, hen, hin]
    | endParagraph => by_cases hin : st.inFootnote.isEmpty <;> simp [applyFN, hen, hin]
    | textEv s => by_cases hin : st.inFootnote.isEmpty <;> simp [applyFN, hen, hin]
    | htmlEv s => by_cases hin : st.inFootnote.isEmpty <;> simp [applyFN, hen, hin]
    | otherEv => by_cases hin : st.inFootnote.isEmpty <;> simp [applyFN, hen, hin]

theorem fnLookup_runFN (evs : List FEvent) (st : FNState) (name : String)
    (h : ∀ e ∈ evs, e ≠ FEvent.footnoteReference name) :
    fnLookup (runFN st evs).1.footnoteNumbers name = fnLookup st.footnoteNumbers name := by
  induction evs generalizing st with
  | nil => rfl
  | cons e es ih =>
    have he : e ≠ FEvent.footnoteReference name := h e (List.mem_cons_self e es)
    have hes : ∀ x ∈ es, x ≠ FEvent.footnoteReference name :=
      fun x hx => h x (List.mem_cons_of_mem e hx)
    show fnLookup (runFN (applyFN st e).1 es).1.footnoteNumbers name = _
    rw [ih (applyFN st e).1 hes]
    exact applyFN_numbers_ne st e name (fun n hn => fun hc => he (hn.trans (by rw [hc])))

theorem headName_some {f : List FEvent} {name : String} (h : headName f = some name) :
    f.head? = some (FEvent.startFootnoteDef name) := by
  cases f with
  | nil => simp [headName] at h
  | cons e rest =>
    cases e with
    | startFootnoteDef n =>
      simp [headName] at h
      rw [h]
      rfl
    | endFootnoteDef => simp [headName] at h
    | footnoteReference n => simp [headName] at h
    | startParagraph => simp [headName] at h
    | endParagraph => simp [headName] at h
    | textEv s => simp [headName] at h
    | htmlEv s => simp [headName] at h
    | otherEv => simp [headName] at h

theorem mem_insertByKey {α : Type} (key : α → Nat) (x a : α) (l : List α) :
    a ∈ insertByKey key x l ↔ a = x ∨ a ∈ l := by
  induction l with
  | nil => simp [insertByKey]
  | cons y ys ih =>
    unfold insertByKey
    split
    · simp [List.mem_cons]
    · simp only [List.mem_cons, ih]
      tauto

theorem mem_sortByKey {α : Type} (key : α → Nat) (a : α) (l : List α) :
    a ∈ sortByKey key l ↔ a ∈ l := by
  induction l with
  | nil => simp [sortByKey]
  | cons x xs ih => simp [sortByKey, mem_insertByKey, ih]

/-- C8: a footnote definition whose name is never referenced in the
chapter stream has usage count zero at end-of-chapter, so the pruning
step drops it: no retained (and hence no re-emitted) block carries that
definition name. -/
theorem unused_footnote_pruned (evs : List FEvent) (name : String)
    (h : ∀ e ∈ evs, e ≠ FEvent.footnoteReference name) :
    (∀ f ∈ retainFN (runFN (fnNew true) evs).1, headName f ≠ some name) ∧
    (∀ f ∈ sortedFootnotes (runFN (fnNew true) evs).1, headName f ≠ some name) := by
  have hlook : fnLookup (runFN (fnNew true) evs).1.footnoteNumbers name = none := by
    rw [fnLookup_runFN evs (fnNew true) name h]
    rfl
  have hret : ∀ f ∈ retainFN (runFN (fnNew true) evs).1, headName f ≠ some name := by
    intro f hf heq
    have hpred := List.of_mem_filter hf
    rw [headName_some heq] at hpred
    simp [hlook] at hpred
  exact ⟨hret, fun f hf => hret f ((mem_sortByKey _ f _).mp hf)⟩

/-- C8 witness: a concrete defined-but-unreferenced footnote yields no
block. -/
theorem unused_footnote_pruned_witness :
    (∀ e ∈ evsC8, e ≠ FEvent.footnoteReference ("u")) ∧
    (∀ f ∈ retainFN (runFN (fnNew true) evsC8).1, headName f ≠ some ("u")) ∧
    (∀ f ∈ sortedFootnotes (runFN (fnNew true) evsC8).1, headName f ≠ some ("u")) :=
  ⟨by decide, (unused_footnote_pruned evsC8 ("u") (by decide)).1,
   (unused_footnote_pruned evsC8 ("u") (by decide)).2⟩

theorem numbered_length (acc : List String) (k : Nat) :
    (numbered acc k).length = acc.length := by
  induction acc generalizing k with
  | nil => rfl
  | cons b bs ih => simp [numbered, ih]

theorem numbered_append (acc : List String) (n : String) (k : Nat) :
    numbered (acc ++ [n]) k = numbered acc k ++ [(n, k + acc.length + 1)] := by
  induction acc generalizing k with
  | nil => simp [numbered]
  | cons b bs ih =>
    have harith : k + 1 + bs.length + 1 = k + (bs.length + 1) + 1 := by omega
    simp [numbered, ih (k + 1), harith]

theorem projNums_length (m : List (String × Nat × Nat)) :
    (projNums m).length = m.length := by
  induction m with
  | nil => rfl
  | cons e rest ih => simp [projNums, ih]

theorem lookupNum_projNums (m : List (String × Nat × Nat)) (name : String) :
    lookupNum (projNums m) name = (fnLookup m name).map Prod.fst := by
  induction m with
  | nil => rfl
  | cons e rest ih =>
    obtain ⟨n1, a, b⟩ := e
    by_cases hn : n1 = name
    · simp [projNums, lookupNum, fnLookup, hn]
    · simp [projNums, lookupNum, fnLookup, hn, ih]

theorem projNums_fnBump (m : List (String × Nat × Nat)) (name : String) (f : Nat) :
    projNums (fnBump m name f) =
      if (fnLookup m name).isSome then projNums m else projNums m ++ [(name, f)] := by
  induction m with
  | nil => simp [fnBump, fnLookup, projNums]
  | cons e rest ih =>
    obtain ⟨n1, a, b⟩ := e
    by_cases hn : n1 = name
    · subst hn
      simp [fnBump, fnLookup, projNums]
    · by_cases hs : (fnLookup rest name).isSome = true
      · simp [fnBump, fnLookup, projNums, hn, ih, hs]
      · simp [fnBump, fnLookup, projNums, hn, ih, hs]

theorem lookupNum_numbered (acc : List String) (k : Nat) (name : String) :
    lookupNum (numbered acc k) name =
      if name ∈ acc then some (k + idxOfStr name acc + 1) else none := by
  induction acc generalizing k with
  | nil => simp [numbered, lookupNum]
  | cons b bs ih =>
    by_cases hb : b = name
    · subst hb
      simp [numbered, lookupNum, idxOfStr]
    · simp only [numbered, lookupNum, hb, if_false, ih (k + 1), idxOfStr,
        List.mem_cons]
      have hbne : ¬(name = b) := fun hc => hb hc.symm
      simp only [hbne, false_or]
      split
      · have : k + 1 + idxOfStr name bs + 1 = k + (idxOfStr name bs + 1) + 1 := by omega
        rw [this]
      · rfl

theorem idxOfStr_lt_length {n : String} {acc : List String} (h : n ∈ acc) :
    idxOfStr n acc < acc.length := by
  induction acc with
  | nil => cases h
  | cons b bs ih =>
    by_cases hb : b = n
    · simp [idxOfStr, hb]
    · rcases List.mem_cons.mp h with hn | hmem
      · exact absurd hn.symm hb
      · simp only [idxOfStr, hb, if_false, List.length_cons]
        exact Nat.succ_lt_succ (ih hmem)

theorem idxOfStr_append_of_mem {n : String} {acc : List String} (t : List String)
    (h : n ∈ acc) : idxOfStr n (acc ++ t) = idxOfStr n acc := by
  induction acc with
  | nil => cases h
  | cons b bs ih =>
    by_cases hb : b = n
    · simp [idxOfStr, hb]
    · rcases List.mem_cons.mp h with hn | hmem
      · exact absurd hn.symm hb
      · simp [idxOfStr, hb, ih hmem]

theorem idxOfStr_append_of_not_mem {n : String} {acc : List String} (t : List String)
    (h : n ∉ acc) : idxOfStr n (acc ++ t) = acc.length + idxOfStr n t := by
  induction acc with
  | nil => simp [idxOfStr]
  | cons b bs ih =>
    have hb : b ≠ n := fun hc => h (hc ▸ List.mem_cons_self b bs)
    have hbs : n ∉ bs := fun hc => h (List.mem_cons_of_mem b hc)
    simp [idxOfStr, hb, ih hbs]
    omega

theorem refStep_exists_append (acc : List String) (e : FEvent) :
    ∃ t, refStep acc e = acc ++ t := by
  cases e with
  | footnoteReference n =>
    by_cases hn : n ∈ acc
    · exact ⟨[], by simp [refStep, hn]⟩
    · exact ⟨[n], by simp [refStep, hn]⟩
  | startFootnoteDef n => exact ⟨[], by simp [refStep]⟩
  | endFootnoteDef => exact ⟨[], by simp [refStep]⟩
  | startParagraph => exact ⟨[], by simp [refStep]⟩
  | endParagraph => exact ⟨[], by simp [refStep]⟩
  | textEv s => exact ⟨[], by simp [refStep]⟩
  | htmlEv s => exact ⟨[], by simp [refStep]⟩
  | otherEv => exact ⟨[], by simp [refStep]⟩

theorem refNamesGo_exists_append (evs : List FEvent) (acc : List String) :
    ∃ t, refNamesGo acc evs = acc ++ t := by
  induction evs generalizing acc with
  | nil => exact ⟨[], by simp [refNamesGo]⟩
  | cons e es ih =>
    obtain ⟨t1, h1⟩ := refStep_exists_append acc e
    obtain ⟨t2, h2⟩ := ih (refStep acc e)
    refine ⟨t1 ++ t2, ?_⟩
    show refNamesGo (refStep acc e) es = _
    rw [h2, h1, List.append_assoc]

theorem mem_refNamesGo_of_mem (evs : List FEvent) (acc : List String) {n : String}
    (h : n ∈ acc) : n ∈ refNamesGo acc evs := by
  obtain ⟨t, ht⟩ := refNamesGo_exists_append evs acc
  rw [ht]
  exact List.mem_append_left t h

theorem mem_refStep_self (acc : List String) (n : String) :
    n ∈ refStep acc (FEvent.footnoteReference n) := by
  by_cases hn : n ∈ acc
  · simp only [refStep, if_pos hn]
    exact hn
  · simp [refStep, hn]

theorem mem_refNamesGo_of_ref (evs : List FEvent) (acc : List String) (i : Nat) {n : String}
    (h : evs.get? i = some (FEvent.footnoteReference n)) : n ∈ refNamesGo acc evs := by
  induction evs generalizing acc i with
  | nil => exact Option.noConfusion h
  | cons e es ih =>
    cases i with
    | zero =>
      have he : e = FEvent.footnoteReference n := by
        injection h
      subst he
      exact mem_refNamesGo_of_mem es _ (mem_refStep_self acc n)
    | succ i1 =>
      exact ih (refStep acc e) i1 h

theorem idx_lt_refNamesGo (evs : List FEvent) (acc : List String) {A B : String}
    (hA : A ∈ acc) (hB : B ∉ acc) :
    idxOfStr A (refNamesGo acc evs) < idxOfStr B (refNamesGo acc evs) := by
  obtain ⟨t, ht⟩ := refNamesGo_exists_append evs acc
  rw [ht, idxOfStr_append_of_mem t hA, idxOfStr_append_of_not_mem t hB]
  calc idxOfStr A acc < acc.length := idxOfStr_lt_length hA
    _ ≤ acc.length + idxOfStr B t := Nat.le_add_right _ _

theorem refNames_lt (evs : List FEvent) (acc : List String) (A B : String) (i j : Nat)
    (hA : evs.get? i = some (FEvent.footnoteReference A))
    (hB : evs.get? j = some (FEvent.footnoteReference B))
    (hij : i < j)
    (hfirst : ∀ k, k < j → evs.get? k ≠ some (FEvent.footnoteReference B))
    (hBacc : B ∉ acc) :
    idxOfStr A (refNamesGo acc evs) < idxOfStr B (refNamesGo acc evs) := by
  induction evs generalizing acc i j with
  | nil => exact Option.noConfusion hA
  | cons e es ih =>
    cases j with
    | zero => exact absurd hij (Nat.not_lt_zero i)
    | succ j1 =>
      have he0 : e ≠ FEvent.footnoteReference B := by
        have h0 := hfirst 0 (Nat.succ_pos j1)
        intro hc
        exact h0 (by rw [hc]; rfl)
      have hBstep : B ∉ refStep acc e := by
        cases e with
        | footnoteReference n =>
          have hnB : n ≠ B := fun hc => he0 (by rw [hc])
          by_cases hn : n ∈ acc
          · simp only [refStep, if_pos hn]
            exact hBacc
          · simp only [refStep, hn, if_false, List.mem_append, List.mem_singleton]
            intro hor
            rcases hor with hc | hc
            · exact hBacc hc
            · exact hnB hc.symm
        | startFootnoteDef n => simpa [refStep] using hBacc
        | endFootnoteDef => simpa [refStep] using hBacc
        | startParagraph => simpa [refStep] using hBacc
        | endParagraph => simpa [refStep] using hBacc
        | textEv s => simpa [refStep] using hBacc
        | htmlEv s => simpa [refStep] using hBacc
        | otherEv => simpa [refStep] using hBacc
      cases i with
      | zero =>
        have he : e = FEvent.footnoteReference A := by
          injection hA
        have hAstep : A ∈ refStep acc e := he ▸ mem_refStep_self acc A
        exact idx_lt_refNamesGo es (refStep acc e) hAstep hBstep
      | succ i1 =>
        exact ih (refStep acc e) i1 j1 hA hB (Nat.lt_of_succ_lt_succ hij)
          (fun k hk => hfirst (k + 1) (Nat.succ_lt_succ hk)) hBstep

theorem applyFN_isEnabled (st : FNState) (e : FEvent) :
    (applyFN st e).1.isEnabled = st.isEnabled := by
  by_cases hen : st.isEnabled = false
  · simp [applyFN, hen]
  · cases e with
    | startFootnoteDef n => simp [applyFN, hen]
    | endFootnoteDef => cases hL : st.inFootnote.getLast? <;> simp [applyFN, hen, hL]
    | footnoteReference n => by_cases hin : st.inFootnote.isEmpty <;> simp [applyFN, hen, hin]
    | startParagraph => by_cases hin : st.inFootnote.isEmpty <;> simp [applyFN, hen, hin]
    | endParagraph => by_cases hin : st.inFootnote.isEmpty <;> simp [applyFN, hen, hin]
    | textEv s => by_cases hin : st.inFootnote.isEmpty <;> simp [applyFN, hen, hin]
    | htmlEv s => by_cases hin : st.inFootnote.isEmpty <;> simp [applyFN, hen, hin]
    | otherEv => by_cases hin : st.inFootnote.isEmpty <;> simp [applyFN, hen, hin]

theorem applyFN_numbers_nonref (st : FNState) (e : FEvent)
    (h : ∀ n, e ≠ FEvent.footnoteReference n) :
    (applyFN st e).1.footnoteNumbers = st.footnoteNumbers := by
  by_cases hen : st.isEnabled = false
  · simp [applyFN, hen]
  · cases e with
    | startFootnoteDef n => simp [applyFN, hen]
    | endFootnoteDef => cases hL : st.inFootnote.getLast? <;> simp [applyFN, hen, hL]
    | footnoteReference n => exact absurd rfl (h n)
    | startParagraph => by_cases hin : st.inFootnote.isEmpty <;> simp [applyFN, hen, hin]
    | endParagraph => by_cases hin : st.inFootnote.isEmpty <;> simp [applyFN, hen, hin]
    | textEv s => by_cases hin : st.inFootnote.isEmpty <;> simp [applyFN, hen, hin]
    | htmlEv s => by_cases hin : st.inFootnote.isEmpty <;> simp [applyFN, hen, hin]
    | otherEv => by_cases hin : st.inFootnote.isEmpty <;> simp [applyFN, hen, hin]

theorem applyFN_numbers_ref (st : FNState) (n : String) (hen : st.isEnabled = true) :
    (applyFN st (FEvent.footnoteReference n)).1.footnoteNumbers =
      fnBump st.footnoteNumbers n (st.footnoteNumbers.length + 1) := by
  by_cases hin : st.inFootnote.isEmpty <;> simp [applyFN, hen, hin]

theorem projNums_applyFN (st : FNState) (e : FEvent) (acc : List String)
    (hen : st.isEnabled = true)
    (hinv : projNums st.footnoteNumbers = numbered acc 0) :
    projNums (applyFN st e).1.footnoteNumbers = numbered (refStep acc e) 0 := by
  cases e with
  | footnoteReference n =>
    rw [applyFN_numbers_ref st n hen, projNums_fnBump]
    have hlen : st.footnoteNumbers.length = acc.length := by
      have h1 := projNums_length st.footnoteNumbers
      rw [hinv, numbered_length] at h1
      omega
    have h2 := lookupNum_projNums st.footnoteNumbers n
    rw [hinv, lookupNum_numbered] at h2
    by_cases hn : n ∈ acc
    · rw [if_pos hn] at h2
      have hsome : (fnLookup st.footnoteNumbers n).isSome = true := by
        cases hfl : fnLookup st.footnoteNumbers n with
        | none => rw [hfl] at h2; exact Option.noConfusion h2
        | some p => rfl
      rw [if_pos hsome, hinv]
      simp [refStep, hn]
    · rw [if_neg hn] at h2
      have hnone : ¬(fnLookup st.footnoteNumbers n).isSome = true := by
        cases hfl : fnLookup st.footnoteNumbers n with
        | none => simp
        | some p => rw [hfl] at h2; exact Option.noConfusion h2
      rw [if_neg hnone, hinv, hlen]
      have hstep : refStep acc (FEvent.footnoteReference n) = acc ++ [n] := by
        simp [refStep, hn]
      rw [hstep, numbered_append]
      simp
  | startFootnoteDef n =>
    rw [applyFN_numbers_nonref st _ (fun n hc => FEvent.noConfusion hc)]
    exact hinv
  | endFootnoteDef =>
    rw [applyFN_numbers_nonref st _ (fun n hc => FEvent.noConfusion hc)]
    exact hinv
  | startParagraph =>
    rw [applyFN_numbers_nonref st _ (fun n hc => FEvent.noConfusion hc)]
    exact hinv
  | endParagraph =>
    rw [applyFN_numbers_nonref st _ (fun n hc => FEvent.noConfusion hc)]
    exact hinv
  | textEv s =>
    rw [applyFN_numbers_nonref st _ (fun n hc => FEvent.noConfusion hc)]
    exact hinv
  | htmlEv s =>
    rw [applyFN_numbers_nonref st _ (fun n hc => FEvent.noConfusion hc)]
    exact hinv
  | otherEv =>
    rw [applyFN_numbers_nonref st _ (fun n hc => FEvent.noConfusion hc)]
    exact hinv

theorem runFN_projNums (evs : List FEvent) (st : FNState) (acc : List String)
    (hen : st.isEnabled = true)
    (hinv : projNums st.footnoteNumbers = numbered acc 0) :
    projNums (runFN st evs).1.footnoteNumbers = numbered (refNamesGo acc evs) 0 := by
  induction evs generalizing st acc with
  | nil => exact hinv
  | cons e es ih =>
    show projNums (runFN (applyFN st e).1 es).1.footnoteNumbers =
      numbered (refNamesGo (refStep acc e) es) 0
    exact ih (applyFN st e).1 (refStep acc e)
      (by rw [applyFN_isEnabled]; exact hen)
      (projNums_applyFN st e acc hen hinv)

theorem fnLookup_number (m : List (String × Nat × Nat)) (acc : List String) (name : String)
    (hinv : projNums m = numbered acc 0) (hmem : name ∈ acc) :
    ∃ cnt, fnLookup m name = some (idxOfStr name acc + 1, cnt) := by
  have h3 := lookupNum_projNums m name
  rw [hinv, lookupNum_numbered, if_pos hmem] at h3
  cases hfl : fnLookup m name with
  | none => rw [hfl] at h3; exact Option.noConfusion h3
  | some p =>
    obtain ⟨a, b⟩ := p
    rw [hfl] at h3
    refine ⟨b, ?_⟩
    have ha : 0 + idxOfStr name acc + 1 = a := by
      injection h3
    rw [← ha]
    have : 0 + idxOfStr name acc + 1 = idxOfStr name acc + 1 := by omega
    rw [this]

theorem pairwise_insertByKey {α : Type} (key : α → Nat) (x : α) (l : List α)
    (h : l.Pairwise (fun a b => key a ≤ key b)) :
    (insertByKey key x l).Pairwise (fun a b => key a ≤ key b) := by
  induction l with
  | nil => simp [insertByKey]
  | cons y ys ih =>
    rcases List.pairwise_cons.mp h with ⟨hy, hys⟩
    unfold insertByKey
    split
    · rename_i hxy
      refine List.pairwise_cons.mpr ⟨?_, h⟩
      intro z hz
      rcases List.mem_cons.mp hz with rfl | hz
      · exact hxy
      · exact le_trans hxy (hy z hz)
    · rename_i hxy
      refine List.pairwise_cons.mpr ⟨?_, ih hys⟩
      intro z hz
      rcases (mem_insertByKey key x z ys).mp hz with rfl | hz
      · exact le_of_not_le hxy
      · exact hy z hz

theorem pairwise_sortByKey {α : Type} (key : α → Nat) (l : List α) :
    (sortByKey key l).Pairwise (fun a b => key a ≤ key b) := by
  induction l with
  | nil => simp [sortByKey]
  | cons x xs ih => exact pairwise_insertByKey key x _ ih

theorem keyOf_of_headName {m : List (String × Nat × Nat)} {f : List FEvent} {A : String}
    (h : headName f = some A) :
    keyOf m f = ((fnLookup m A).getD (0, 0)).1 := by
  unfold keyOf
  rw [headName_some h]

/-- C1: with back-references enabled, footnote numbers are assigned in
first-reference order of the chapter token stream and the re-emitted
definition blocks are sorted by that number: when a reference to name A
occurs before the first reference to name B, A receives a strictly
smaller number than B and every retained definition block for A is
emitted before every retained definition block for B. -/
theorem footnote_first_reference_order (evs : List FEvent) (A B : String) (i j : Nat)
    (hA : evs.get? i = some (FEvent.footnoteReference A))
    (hB : evs.get? j = some (FEvent.footnoteReference B))
    (hij : i < j)
    (hfirst : ∀ k, k < j → evs.get? k ≠ some (FEvent.footnoteReference B)) :
    ∃ nA cA nB cB,
      fnLookup (runFN (fnNew true) evs).1.footnoteNumbers A = some (nA, cA) ∧
      fnLookup (runFN (fnNew true) evs).1.footnoteNumbers B = some (nB, cB) ∧
      nA < nB ∧
      ∀ p q (hp : p < (sortedFootnotes (runFN (fnNew true) evs).1).length)
          (hq : q < (sortedFootnotes (runFN (fnNew true) evs).1).length),
        headName ((sortedFootnotes (runFN (fnNew true) evs).1).get ⟨p, hp⟩) = some A →
        headName ((sortedFootnotes (runFN (fnNew true) evs).1).get ⟨q, hq⟩) = some B →
        p < q := by
  have hinv : projNums (runFN (fnNew true) evs).1.footnoteNumbers =
      numbered (refNamesGo [] evs) 0 :=
    runFN_projNums evs (fnNew true) [] rfl rfl
  have hAmem : A ∈ refNamesGo [] evs := mem_refNamesGo_of_ref evs [] i hA
  have hBmem : B ∈ refNamesGo [] evs := mem_refNamesGo_of_ref evs [] j hB
  have hidx : idxOfStr A (refNamesGo [] evs) < idxOfStr B (refNamesGo [] evs) :=
    refNames_lt evs [] A B i j hA hB hij hfirst (List.not_mem_nil B)
  obtain ⟨cA, hlA⟩ := fnLookup_number _ _ A hinv hAmem
  obtain ⟨cB, hlB⟩ := fnLookup_number _ _ B hinv hBmem
  refine ⟨idxOfStr A (refNamesGo [] evs) + 1, cA, idxOfStr B (refNamesGo [] evs) + 1, cB,
    hlA, hlB, Nat.succ_lt_succ hidx, ?_⟩
  intro p q hp hq hpA hqB
  have hsorted : (sortedFootnotes (runFN (fnNew true) evs).1).Pairwise
      (fun a b => keyOf (runFN (fnNew true) evs).1.footnoteNumbers a ≤
        keyOf (runFN (fnNew true) evs).1.footnoteNumbers b) := by
    unfold sortedFootnotes
    exact pairwise_sortByKey _ _
  have hne : p ≠ q := by
    intro hpq
    subst hpq
    have hAB : some A = some B := hpA.symm.trans hqB
    have hABeq : A = B := by injection hAB
    rw [hABeq] at hidx
    omega
  by_contra hpq
  have hqp : q < p := by
    rcases Nat.lt_or_ge q p with h1 | h1
    · exact h1
    · exact absurd (Nat.lt_of_le_of_ne h1 hne) hpq
  have hle := List.pairwise_iff_get.mp hsorted ⟨q, hq⟩ ⟨p, hp⟩ hqp
  rw [keyOf_of_headName hqB, keyOf_of_headName hpA, hlA, hlB] at hle
  simp at hle
  omega

/-- C1 witness: in a concrete chapter referencing footnote 1 before
footnote 2 while defining 2 before 1, footnote 1 gets the smaller number
and its block is emitted first. -/
theorem footnote_first_reference_order_witness :
    ∃ nA cA nB cB,
      fnLookup (runFN (fnNew true) evsC1).1.footnoteNumbers ("1") = some (nA, cA) ∧
      fnLookup (runFN (fnNew true) evsC1).1.footnoteNumbers ("2") = some (nB, cB) ∧
      nA < nB ∧
      ∀ p q (hp : p < (sortedFootnotes (runFN (fnNew true) evsC1).1).length)
          (hq : q < (sortedFootnotes (runFN (fnNew true) evsC1).1).length),
        headName ((sortedFootnotes (runFN (fnNew true) evsC1).1).get ⟨p, hp⟩) = some ("1") →
        headName ((sortedFootnotes (runFN (fnNew true) evsC1).1).get ⟨q, hq⟩) = some ("2") →
        p < q :=
  footnote_first_reference_order evsC1 ("1") ("2") 1 2 (by rfl) (by rfl) (by decide)
    (by decide)

end MdBookEpub
